import Mathlib

/-!
Verification of the `t9vm` trie-walking engine (`src/lib.rs`).

The Rust source is embedded shallowly:

* `Instruction` and `Instr` model the packed control byte and its decoding
  (`impl From<u8> for Instruction`, `Instr::len_u8`, and the facet queries
  `is_word` / `has_children` / `is_last`).  `Instruction.fromU8` returns
  `none` exactly where the Rust `match` would reach `unreachable!()`.
* `Stack.push` / `Stack.pop` / `Stack.peek` / `Stack.drop_n` model the
  `Stack<T>` wrapper over `Vec<T>`.  A stack is a `List` whose head is the
  top, so the Rust `all()` view (bottom to top) is `List.reverse`.
* `T9Vm` and `T9Vm.next_word` model the traversal engine.  `next_word`
  returns `none` where the Rust code would panic (a failed `unwrap` inside
  `pop_cstack`), and `some (w?, vm)` for a normal return: `w? = none` is
  the Rust `None` (exhaustion, or one of the soft error exits through
  `?` / `.ok()?`), and `w? = some bytes` is `Some(word)`, the byte content
  of the word stack from bottom to top.  The unbounded `loop { .. }` of
  `next_word` is expressed with an explicit fuel that is always sufficient
  (`program.length + 1`), since every iteration advances the cursor by at
  least one and requires an in-bounds read to continue; running out of
  fuel is the unreachable `DRes.fuelOut` answer, mapped to `none`.

A reference data model of well-formed programs (`Node`, `encForest`,
`forestWords`, `wfForest`) transcribes the byte format documented in the
source (the opcode table and node layout), and the main theorems relate
runs of the embedded engine to that model.
-/

/-- Byte lookup in the program buffer (`self.program.get(i)`). -/
def getAt : List Nat → Nat → Option Nat
  | [], _ => none
  | b :: _, 0 => some b
  | _ :: l, n + 1 => getAt l n

namespace Stack

/-- `Stack::push`: `Ok(self.0.push(t))` — always succeeds, the vector grows
without bound.  The `Bool` is the `Result` (`true` = `Ok`). -/
def push (x : α) (s : List α) : Bool × List α := (true, x :: s)

/-- `Stack::pop`. -/
def pop : List α → Option (α × List α)
  | [] => none
  | x :: s => some (x, s)

/-- `Stack::peek`. -/
def peek : List α → Option α
  | [] => none
  | x :: _ => some x

/-- `Stack::drop_n`: pops one element at a time; on underflow it fails with
`Err(())` only after having emptied the stack. -/
def drop_n : Nat → List α → Bool × List α
  | 0, s => (true, s)
  | _ + 1, [] => (false, [])
  | n + 1, _ :: s => drop_n n s

end Stack

/-- The eight opcodes, `enum Instruction` (S..Z as in the source). -/
inductive Instruction where
  | S  -- !word, !children, !last
  | T  -- !word, !children,  last
  | U  -- !word,  children, !last
  | V  -- !word,  children,  last
  | W  --  word, !children, !last
  | X  --  word, !children,  last
  | Y  --  word,  children, !last
  | Z  --  word,  children,  last
deriving DecidableEq

/-- `impl From<u8> for Instruction`: match on `val & INSTR_MASK`.
`none` models the `unreachable!()` arm. -/
def Instruction.fromU8 (val : Nat) : Option Instruction :=
  match val % 8 with
  | 0 => some .S
  | 1 => some .T
  | 2 => some .U
  | 3 => some .V
  | 4 => some .W
  | 5 => some .X
  | 6 => some .Y
  | 7 => some .Z
  | _ => none

/-- `struct Instr(u8)`; the byte is kept as a `Nat`. -/
structure Instr where
  val : Nat
deriving DecidableEq

/-- `Instr::instr`. -/
def Instr.instr (i : Instr) : Option Instruction := Instruction.fromU8 i.val

/-- `Instr::is_word`: true on W, X, Y, Z. -/
def Instr.is_word (i : Instr) : Bool :=
  match i.instr with
  | some .W | some .X | some .Y | some .Z => true
  | _ => false

/-- `Instr::is_last`: true on T, V, X, Z. -/
def Instr.is_last (i : Instr) : Bool :=
  match i.instr with
  | some .T | some .V | some .X | some .Z => true
  | _ => false

/-- `Instr::has_children`: true on U, V, Y, Z. -/
def Instr.has_children (i : Instr) : Bool :=
  match i.instr with
  | some .U | some .V | some .Y | some .Z => true
  | _ => false

/-- `Instr::len` via `len_u8`: `(val & LEN_MASK) >> LEN_SHIFT` on a `u8`. -/
def Instr.len (i : Instr) : Nat := i.val % 256 / 8

/-- Continuation byte test for UTF-8 (`0x80..=0xBF`). -/
def isCont (b : Nat) : Bool := 0x80 ≤ b && b ≤ 0xBF

/-- One step of the standard UTF-8 acceptance automaton, as used by
`core::str::from_utf8`.  States: 0 start; 1/2/3 expect that many generic
continuation bytes; 4 after `E0`; 5 after `ED`; 6 after `F0`; 7 after `F4`. -/
def utf8Step (st b : Nat) : Option Nat :=
  match st with
  | 0 =>
    if b ≤ 0x7F then some 0
    else if b < 0xC2 then none
    else if b ≤ 0xDF then some 1
    else if b = 0xE0 then some 4
    else if b = 0xED then some 5
    else if b ≤ 0xEF then some 2
    else if b = 0xF0 then some 6
    else if b ≤ 0xF3 then some 3
    else if b = 0xF4 then some 7
    else none
  | 1 => if isCont b then some 0 else none
  | 2 => if isCont b then some 1 else none
  | 3 => if isCont b then some 2 else none
  | 4 => if 0xA0 ≤ b && b ≤ 0xBF then some 1 else none
  | 5 => if 0x80 ≤ b && b ≤ 0x9F then some 1 else none
  | 6 => if 0x90 ≤ b && b ≤ 0xBF then some 2 else none
  | 7 => if 0x80 ≤ b && b ≤ 0x8F then some 2 else none
  | _ => none

/-- Run the UTF-8 automaton over a byte list. -/
def utf8Run : Nat → List Nat → Option Nat
  | st, [] => some st
  | st, b :: l =>
    match utf8Step st b with
    | none => none
    | some st2 => utf8Run st2 l

/-- `core::str::from_utf8(..).is_ok()` on a byte list. -/
def validUtf8 (l : List Nat) : Bool := utf8Run 0 l == some 0

/-- `struct T9Vm`.  Stacks are lists with the head as top of stack. -/
structure T9Vm where
  control_stack : List Instr
  word_stack : List Nat
  prio_addr_stack : List Nat
  program_ctr : Nat
  program : List Nat
deriving DecidableEq

/-- The body of `T9Vm::pop_cstack` acting on the word and priority stacks,
after the control-stack top `i` has been removed: `drop_n(i.len()).unwrap()`
then, if `i.is_word()`, `prio_addr_stack.pop().unwrap()`.  `none` models a
panic of either `unwrap`. -/
def popStep (i : Instr) (ws ps : List Nat) : Option (List Nat × List Nat) :=
  match Stack.drop_n i.len ws with
  | (false, _) => none
  | (true, ws2) =>
    if i.is_word then
      match Stack.pop ps with
      | none => none
      | some (_, ps2) => some (ws2, ps2)
    else some (ws2, ps)

/-- `T9Vm::pop_cstack`: `none` models a panic (`unwrap` on an empty control
stack, word-stack underflow, or an empty priority stack). -/
def T9Vm.pop_cstack (vm : T9Vm) : Option (Instr × T9Vm) :=
  match vm.control_stack with
  | [] => none
  | i :: cs =>
    match popStep i vm.word_stack vm.prio_addr_stack with
    | none => none
    | some (ws, ps) =>
      some (i, ⟨cs, ws, ps, vm.program_ctr, vm.program⟩)

/-- Result of the backtracking `while` loop in `next_word`
(`while self.control_stack.peek()?.is_last() { self.pop_cstack(); }`
followed by one more `pop_cstack`). -/
inductive BtRes where
  | stopped (ws ps : List Nat)            -- `peek()?` saw an empty stack
  | go (cs : List Instr) (ws ps : List Nat)  -- popped the non-last entry
  | crash                                  -- an `unwrap` panicked
deriving DecidableEq

/-- The backtracking chain of `next_word`: keep popping while the top of the
control stack is `is_last`, then pop once more; answer `stopped` if the
control stack runs empty first (the `?` on `peek`). -/
def backtrackLast : List Instr → List Nat → List Nat → BtRes
  | [], ws, ps => .stopped ws ps
  | i :: cs, ws, ps =>
    match popStep i ws ps with
    | none => .crash
    | some (ws2, ps2) =>
      if i.is_last then backtrackLast cs ws2 ps2
      else .go cs ws2 ps2

/-- The `for _ in 0..cur_instr.len()` loop pushing payload bytes: returns
(success, word stack, cursor).  Failure (`false`) is the `?` on
`self.program.get(..)`, leaving the partial pushes in place. -/
def pushPayload (prog : List Nat) : Nat → Nat → List Nat → Bool × List Nat × Nat
  | pc, 0, ws => (true, ws, pc)
  | pc, n + 1, ws =>
    match getAt prog pc with
    | none => (false, ws, pc)
    | some b =>
      match Stack.push b ws with
      | (true, ws2) => pushPayload prog (pc + 1) n ws2
      | (false, ws2) => (false, ws2, pc)

/-- Result of the `push + execute` loop of `next_word`. -/
inductive DRes where
  | out (w : Option (List Nat)) (cs : List Instr) (ws ps : List Nat) (pc : Nat)
  | fuelOut
deriving DecidableEq

/-- The `loop { .. }` of `next_word` (push + execute): read the control byte
at the cursor, push it, record the priority-byte address and skip it for
word nodes, push the payload bytes, and yield when the node is a word.
Every non-final iteration advances `pc` past an in-bounds read, so any fuel
greater than `prog.length - pc` never runs out. -/
def pushExecute (prog : List Nat) : Nat → Nat → List Instr → List Nat → List Nat → DRes
  | 0, _, _, _, _ => .fuelOut
  | fuel + 1, pc, cs, ws, ps =>
    match getAt prog pc with
    | none => .out none cs ws ps pc
    | some b =>
      let i : Instr := ⟨b⟩
      match Stack.push i cs with
      | (false, cs2) => .out none cs2 ws ps pc
      | (true, cs2) =>
        let pc1 := pc + 1
        match (if i.is_word then (Stack.push pc1 ps, pc1 + 1) else ((true, ps), pc1)) with
        | ((false, ps2), pcP) => .out none cs2 ws ps2 pcP
        | ((true, ps2), pcP) =>
          match pushPayload prog pcP i.len ws with
          | (false, ws2, pc2) => .out none cs2 ws2 ps2 pc2
          | (true, ws2, pc2) =>
            if i.is_word then
              if validUtf8 ws2.reverse then .out (some ws2.reverse) cs2 ws2 ps2 pc2
              else .out none cs2 ws2 ps2 pc2
            else pushExecute prog fuel pc2 cs2 ws2 ps2

/-- Package a `DRes` as the result of `next_word` over a given program. -/
def finishExec (prog : List Nat) (r : DRes) : Option (Option (List Nat) × T9Vm) :=
  match r with
  | .fuelOut => none
  | .out w cs ws ps pc => some (w, ⟨cs, ws, ps, pc, prog⟩)

/-- `T9Vm::next_word`.  Outer `none` models a panic; `some (none, vm)` is the
Rust `None` return; `some (some w, vm)` is `Some(word)`. -/
def T9Vm.next_word (vm : T9Vm) : Option (Option (List Nat) × T9Vm) :=
  match Stack.peek vm.control_stack with
  | some i =>
    if i.has_children then
      finishExec vm.program
        (pushExecute vm.program (vm.program.length + 1) vm.program_ctr
          vm.control_stack vm.word_stack vm.prio_addr_stack)
    else
      match vm.pop_cstack with
      | none => none
      | some (val, vm1) =>
        if val.is_last then
          match backtrackLast vm1.control_stack vm1.word_stack vm1.prio_addr_stack with
          | .crash => none
          | .stopped ws ps => some (none, ⟨[], ws, ps, vm1.program_ctr, vm1.program⟩)
          | .go cs ws ps =>
            finishExec vm1.program
              (pushExecute vm1.program (vm1.program.length + 1) vm1.program_ctr cs ws ps)
        else
          finishExec vm1.program
            (pushExecute vm1.program (vm1.program.length + 1) vm1.program_ctr
              vm1.control_stack vm1.word_stack vm1.prio_addr_stack)
  | none =>
    finishExec vm.program
      (pushExecute vm.program (vm.program.length + 1) vm.program_ctr
        vm.control_stack vm.word_stack vm.prio_addr_stack)

/-- The freshly constructed engine of the `smoke` test: empty stacks,
cursor 0. -/
def T9Vm.init (prog : List Nat) : T9Vm := ⟨[], [], [], 0, prog⟩

/-- `T9Vm::reset`: clear the three stacks, cursor back to 0. -/
def T9Vm.reset (vm : T9Vm) : T9Vm := ⟨[], [], [], 0, vm.program⟩

/-- Collect the words of up to `fuel` successive `next_word` calls, stopping
at the first call that does not return a word (the `while let` loop of the
`smoke` test). -/
def runWords (vm : T9Vm) : Nat → List (List Nat)
  | 0 => []
  | fuel + 1 =>
    match vm.next_word with
    | some (some w, vm2) => w :: runWords vm2 fuel
    | _ => []

/-- The engine state after `k` calls to `next_word`; `none` if any call
panicked. -/
def runState (vm : T9Vm) : Nat → Option T9Vm
  | 0 => some vm
  | k + 1 =>
    match vm.next_word with
    | none => none
    | some (_, vm2) => runState vm2 k

/-- ASCII byte list of a string (used to spell payloads and expected words). -/
def str (s : String) : List Nat := s.data.map Char.toNat

/-- `Instr::from_len_instr(len, U)`: control byte of a U node. -/
def uOp (l : Nat) : Nat := 8 * l + 2

/-- `Instr::from_len_instr(len, V)`: control byte of a V node. -/
def vOp (l : Nat) : Nat := 8 * l + 3

/-- `Instr::from_len_instr(len, W)`: control byte of a W node. -/
def wOp (l : Nat) : Nat := 8 * l + 4

/-- `Instr::from_len_instr(len, X)`: control byte of an X node. -/
def xOp (l : Nat) : Nat := 8 * l + 5

/-- `Instr::from_len_instr(len, Y)`: control byte of a Y node. -/
def yOp (l : Nat) : Nat := 8 * l + 6

/-- `Instr::from_len_instr(len, Z)`: control byte of a Z node. -/
def zOp (l : Nat) : Nat := 8 * l + 7

/-- The `DEMO` program of the source, byte for byte (`PRIO = 0`). -/
def DEMO : List Nat :=
  [yOp 1, 0] ++ str "a" ++
  [yOp 4, 0] ++ str "aron" ++
  [xOp 1, 0] ++ str "s" ++
  [yOp 1, 0] ++ str "b" ++
  [xOp 2, 0] ++ str "le" ++
  [uOp 2] ++ str "pp" ++
  [yOp 2, 0] ++ str "le" ++
  [wOp 2, 0] ++ str "ts" ++
  [xOp 1, 0] ++ str "s" ++
  [zOp 4, 0] ++ str "note" ++
  [vOp 1] ++ str "_" ++
  [zOp 1, 0] ++ str "a" ++
  [zOp 1, 0] ++ str "b" ++
  [yOp 1, 0] ++ str "c" ++
  [xOp 1, 0] ++ str "d" ++
  [zOp 1, 0] ++ str "e" ++
  [xOp 1, 0] ++ str "f" ++
  [xOp 1, 0] ++ str "s" ++
  [xOp 4, 0] ++ str "bite"

/-- A trie node of the program format: does it terminate a word, its
priority byte, its payload (edge label), and its children. -/
inductive Node where
  | mk (word : Bool) (prio : Nat) (payload : List Nat) (children : List Node)

/-- Whether the node terminates a word. -/
def Node.word : Node → Bool
  | .mk w _ _ _ => w

/-- The node's priority byte. -/
def Node.prio : Node → Nat
  | .mk _ p _ _ => p

/-- The node's payload bytes. -/
def Node.payload : Node → List Nat
  | .mk _ _ pl _ => pl

/-- The node's children. -/
def Node.children : Node → List Node
  | .mk _ _ _ ch => ch

/-- The control byte of a node: low 3 bits are (word, has-children, is-last),
high 5 bits the payload length. -/
def ctrlByte (last : Bool) (n : Node) : Nat :=
  8 * n.payload.length + ((if n.word then 4 else 0) +
    (if n.children.isEmpty then 0 else 2) + (if last then 1 else 0))

/-- Pre-order encoding of a forest of sibling nodes; the final sibling is
marked `is-last`.  Node layout: control byte, then the priority byte when
the node terminates a word, then the payload, then the children. -/
def encForest : List Node → List Nat
  | [] => []
  | .mk w pr pl ch :: ns =>
    (8 * pl.length + ((if w then 4 else 0) + (if ch.isEmpty then 0 else 2) +
      (if ns.isEmpty then 1 else 0))) ::
    ((if w then [pr] else []) ++ pl ++ encForest ch ++ encForest ns)

/-- Encoding of a single node with an explicit `is-last` flag. -/
def encNode (last : Bool) (n : Node) : List Nat :=
  ctrlByte last n :: ((if n.word then [n.prio] else []) ++ n.payload ++ encForest n.children)

/-- The pre-order, sibling-order word list of a forest under a prefix. -/
def forestWords (pre : List Nat) : List Node → List (List Nat)
  | [] => []
  | .mk w _ pl ch :: ns =>
    (if w then [pre ++ pl] else []) ++ forestWords (pre ++ pl) ch ++ forestWords pre ns

/-- Well-formedness of a forest under a prefix: payloads are 0–31 bytes of
`u8`s, priorities are `u8`s, no dead-end nodes (every node terminates a word
or has children), and every word is valid UTF-8. -/
def wfForest (pre : List Nat) : List Node → Bool
  | [] => true
  | .mk w pr pl ch :: ns =>
    decide (pl.length ≤ 31) && pl.all (· < 256) && decide (pr < 256) &&
    (w || !ch.isEmpty) &&
    (!w || validUtf8 (pre ++ pl)) &&
    wfForest (pre ++ pl) ch && wfForest pre ns

/-- Number of word-terminating nodes in a forest. -/
def wordNodeCount : List Node → Nat
  | [] => 0
  | .mk w _ _ ch :: ns => (if w then 1 else 0) + wordNodeCount ch + wordNodeCount ns

/-- One level of the traversal position: the currently open node and its
not-yet-visited right siblings. -/
structure Frame where
  node : Node
  rest : List Node

/-- The control byte the engine pushed for a frame's node. -/
def frameInstr (fr : Frame) : Instr := ⟨ctrlByte fr.rest.isEmpty fr.node⟩

/-- The control stack corresponding to a path (head = deepest frame). -/
def pathInstrs (path : List Frame) : List Instr := path.map frameInstr

/-- The word prefix spelled by a path, root first. -/
def pathPrefix : List Frame → List Nat
  | [] => []
  | fr :: rest => pathPrefix rest ++ fr.node.payload

/-- The part of the program after the open subtree: the encodings of the
remaining right siblings at each level, deepest level first. -/
def tailEnc : List Frame → List Nat
  | [] => []
  | fr :: rest => encForest fr.rest ++ tailEnc rest

/-- The words still pending from the remaining right siblings of each level. -/
def pendingAbove : List Frame → List (List Nat)
  | [] => []
  | fr :: rest => forestWords (pathPrefix rest) fr.rest ++ pendingAbove rest

/-- Number of word-terminating frames on a path (one priority-stack entry
each). -/
def pathWordCount (path : List Frame) : Nat :=
  (path.filter (fun fr => fr.node.word)).length

/-- Well-formedness of a path: at every level the open node together with
its remaining siblings is a well-formed forest under the prefix above it. -/
def wfPath : List Frame → Bool
  | [] => true
  | fr :: rest => wfForest (pathPrefix rest) (fr.node :: fr.rest) && wfPath rest

/-- The frame the backtracking chain stops at: the deepest frame with a
remaining right sibling, together with the frames above it. -/
def chainPop : List Frame → Option (Frame × List Frame)
  | [] => none
  | fr :: rest => if fr.rest.isEmpty then chainPop rest else some (fr, rest)

/-- Invariant of the engine state between `next_word` calls on a well-formed
program, together with the list of words still to be produced.  Either the
control stack is empty (initial or exhausted state) and the cursor sits at
the encoding of a well-formed forest of pending roots, or the engine has
just yielded the word of the deepest frame of a well-formed path. -/
def InterInv (vm : T9Vm) (pending : List (List Nat)) : Prop :=
  (∀ b ∈ vm.program, b < 256) ∧
  ((∃ roots,
      wfForest [] roots = true ∧
      vm.control_stack = [] ∧ vm.word_stack = [] ∧ vm.prio_addr_stack = [] ∧
      vm.program.drop vm.program_ctr = encForest roots ∧
      pending = forestWords [] roots) ∨
   (∃ fr rest,
      fr.node.word = true ∧
      wfPath (fr :: rest) = true ∧
      vm.control_stack = pathInstrs (fr :: rest) ∧
      vm.word_stack = (pathPrefix (fr :: rest)).reverse ∧
      vm.prio_addr_stack.length = pathWordCount (fr :: rest) ∧
      vm.program.drop vm.program_ctr = encForest fr.node.children ++ tailEnc (fr :: rest) ∧
      pending = forestWords (pathPrefix (fr :: rest)) fr.node.children ++ pendingAbove (fr :: rest)))

theorem getAt_eq (l : List Nat) (n : Nat) : getAt l n = (l.drop n).head? := by
  induction l generalizing n with
  | nil => cases n <;> simp [getAt]
  | cons b l ih =>
    cases n with
    | zero => simp [getAt]
    | succ m => simp [getAt, ih]

theorem getAt_of_drop_cons {l t : List Nat} {n x : Nat}
    (h : l.drop n = x :: t) : getAt l n = some x := by
  rw [getAt_eq, h]; rfl

theorem getAt_of_drop_nil {l : List Nat} {n : Nat}
    (h : l.drop n = []) : getAt l n = none := by
  rw [getAt_eq, h]; rfl

theorem drop_succ_of_drop_cons {l t : List Nat} {n x : Nat}
    (h : l.drop n = x :: t) : l.drop (n + 1) = t := by
  rw [← List.drop_drop, h]
  rfl

theorem drop_add_of_drop_append {l a b : List Nat} {n : Nat}
    (h : l.drop n = a ++ b) : l.drop (n + a.length) = b := by
  rw [← List.drop_drop, h, List.drop_left]

theorem Stack.drop_n_append (a b : List α) :
    Stack.drop_n a.length (a ++ b) = (true, b) := by
  induction a with
  | nil => rfl
  | cons x a ih => simpa [Stack.drop_n] using ih

theorem pushPayload_spec (prog : List Nat) (pl : List Nat) :
    ∀ (t ws : List Nat) (pc : Nat), prog.drop pc = pl ++ t →
    pushPayload prog pc pl.length ws = (true, pl.reverse ++ ws, pc + pl.length) := by
  induction pl with
  | nil => intro t ws pc _; simp [pushPayload]
  | cons b pl ih =>
    intro t ws pc h
    have hb : getAt prog pc = some b := getAt_of_drop_cons (by simpa using h)
    have h2 : prog.drop (pc + 1) = pl ++ t := drop_succ_of_drop_cons (by simpa using h)
    have h3 := ih t (b :: ws) (pc + 1) h2
    have h4 : pc + (pl.length + 1) = pc + 1 + pl.length := by omega
    simp only [List.length_cons, pushPayload, hb, Stack.push, h3, h4,
      List.reverse_cons, List.append_assoc, List.cons_append, List.nil_append]

theorem ctrl_is_word (last : Bool) (n : Node) :
    (Instr.mk (ctrlByte last n)).is_word = n.word := by
  cases hw : n.word <;> cases hc : n.children.isEmpty <;> cases last <;>
    simp [ctrlByte, Instr.is_word, Instr.instr, Instruction.fromU8, hw, hc,
      Nat.mul_add_mod]

theorem ctrl_is_last (last : Bool) (n : Node) :
    (Instr.mk (ctrlByte last n)).is_last = last := by
  cases hw : n.word <;> cases hc : n.children.isEmpty <;> cases last <;>
    simp [ctrlByte, Instr.is_last, Instr.instr, Instruction.fromU8, hw, hc,
      Nat.mul_add_mod]

theorem ctrl_has_children (last : Bool) (n : Node) :
    (Instr.mk (ctrlByte last n)).has_children = !n.children.isEmpty := by
  cases hw : n.word <;> cases hc : n.children.isEmpty <;> cases last <;>
    simp [ctrlByte, Instr.has_children, Instr.instr, Instruction.fromU8, hw, hc,
      Nat.mul_add_mod]

theorem ctrl_len (last : Bool) (n : Node) (h : n.payload.length ≤ 31) :
    (Instr.mk (ctrlByte last n)).len = n.payload.length := by
  have hb : (if n.word then 4 else 0) + (if n.children.isEmpty then 0 else 2) +
      (if last then 1 else 0) ≤ 7 := by
    cases n.word <;> cases n.children.isEmpty <;> cases last <;> simp
  unfold Instr.len ctrlByte
  have h256 : 8 * n.payload.length + ((if n.word then 4 else 0) +
      (if n.children.isEmpty then 0 else 2) + (if last then 1 else 0)) < 256 := by omega
  rw [Nat.mod_eq_of_lt h256, Nat.mul_add_div (by omega)]
  omega

theorem encForest_cons (n : Node) (ns : List Node) :
    encForest (n :: ns) = encNode ns.isEmpty n ++ encForest ns := by
  cases n with
  | mk w pr pl ch => simp [encForest, encNode, ctrlByte, Node.word, Node.prio,
      Node.payload, Node.children, List.append_assoc]

theorem wfForest_cons {pre : List Nat} {w : Bool} {pr : Nat} {pl : List Nat}
    {ch ns : List Node} (h : wfForest pre (.mk w pr pl ch :: ns) = true) :
    pl.length ≤ 31 ∧ (∀ b ∈ pl, b < 256) ∧ pr < 256 ∧
    (w = true ∨ ch ≠ []) ∧ (w = true → validUtf8 (pre ++ pl) = true) ∧
    wfForest (pre ++ pl) ch = true ∧ wfForest pre ns = true := by
  cases w <;>
    simp only [wfForest, Bool.and_eq_true, Bool.or_eq_true, decide_eq_true_eq,
      List.all_eq_true, Bool.not_eq_true', Bool.false_eq_true, Bool.true_eq_false,
      List.isEmpty_eq_false, false_or, true_or, Bool.not_false, Bool.not_true,
      decide_eq_true_iff] at h <;>
  · obtain ⟨⟨⟨⟨⟨⟨h1, h2⟩, h3⟩, h4⟩, h5⟩, h6⟩, h7⟩ := h
    refine ⟨h1, fun b hb => by simpa using h2 b hb, h3, ?_, ?_, h6, h7⟩ <;> simp_all

/-- Structural induction over forests of the nested inductive `Node`. -/
theorem forestRec {motive : List Node → Prop}
    (hnil : motive [])
    (hcons : ∀ w pr pl ch ns, motive ch → motive ns → motive (.mk w pr pl ch :: ns)) :
    ∀ ns, motive ns := by
  intro ns
  match ns with
  | [] => exact hnil
  | .mk w pr pl ch :: ns2 =>
    exact hcons w pr pl ch ns2 (forestRec hnil hcons ch) (forestRec hnil hcons ns2)
termination_by ns => sizeOf ns

theorem forestWords_ne_nil :
    ∀ (ns : List Node), ∀ (pre : List Nat) (n : Node) (ns2 : List Node),
      ns = n :: ns2 → wfForest pre ns = true → forestWords pre ns ≠ [] := by
  intro ns
  induction ns using forestRec with
  | hnil => intro pre n ns2 h; cases h
  | hcons w pr pl ch ns ihc ihn =>
    intro pre n ns2 heq hwf
    obtain ⟨_, _, _, h4, _, h6, _⟩ := wfForest_cons hwf
    cases w with
    | true => simp [forestWords]
    | false =>
      rcases h4 with h | h
      · cases h
      · obtain ⟨c, cs, rfl⟩ := List.exists_cons_of_ne_nil h
        have hne := ihc (pre ++ pl) c cs rfl h6
        intro hcontra
        rw [forestWords] at hcontra
        simp only [List.append_eq_nil] at hcontra
        exact hne hcontra.1.2

theorem encForest_bytes :
    ∀ (ns : List Node), ∀ (pre : List Nat), wfForest pre ns = true →
      ∀ b ∈ encForest ns, b < 256 := by
  intro ns
  induction ns using forestRec with
  | hnil => intro pre _ b hb; simp [encForest] at hb
  | hcons w pr pl ch ns ihc ihn =>
    intro pre h b hb
    obtain ⟨h1, h2, h3, _, _, h6, h7⟩ := wfForest_cons h
    cases w with
    | false =>
      simp [encForest] at hb
      rcases hb with rfl | hb | hb | hb
      · split_ifs <;> omega
      · exact h2 b hb
      · exact ihc (pre ++ pl) h6 b hb
      · exact ihn pre h7 b hb
    | true =>
      simp [encForest] at hb
      rcases hb with rfl | rfl | hb | hb | hb
      · split_ifs <;> omega
      · omega
      · exact h2 b hb
      · exact ihc (pre ++ pl) h6 b hb
      · exact ihn pre h7 b hb

theorem frameInstr_is_word (fr : Frame) : (frameInstr fr).is_word = fr.node.word :=
  ctrl_is_word _ _

theorem frameInstr_is_last (fr : Frame) : (frameInstr fr).is_last = fr.rest.isEmpty :=
  ctrl_is_last _ _

theorem frameInstr_has_children (fr : Frame) :
    (frameInstr fr).has_children = !fr.node.children.isEmpty :=
  ctrl_has_children _ _

theorem frameInstr_len (fr : Frame) (h : fr.node.payload.length ≤ 31) :
    (frameInstr fr).len = fr.node.payload.length :=
  ctrl_len _ _ h

theorem wfPath_cons {fr : Frame} {rest : List Frame} (h : wfPath (fr :: rest) = true) :
    wfForest (pathPrefix rest) (fr.node :: fr.rest) = true ∧ wfPath rest = true := by
  simpa [wfPath, Bool.and_eq_true] using h

theorem wfForest_head {pre : List Nat} {n : Node} {ns : List Node}
    (h : wfForest pre (n :: ns) = true) :
    n.payload.length ≤ 31 ∧ (n.word = true → validUtf8 (pre ++ n.payload) = true) ∧
    (n.word = true ∨ n.children ≠ []) ∧
    wfForest (pre ++ n.payload) n.children = true ∧ wfForest pre ns = true := by
  cases n with
  | mk w pr pl ch =>
    obtain ⟨h1, _, _, h4, h5, h6, h7⟩ := wfForest_cons h
    exact ⟨h1, h5, h4, h6, h7⟩

theorem pathWordCount_cons (fr : Frame) (rest : List Frame) :
    pathWordCount (fr :: rest) =
      (if fr.node.word then 1 else 0) + pathWordCount rest := by
  cases hw : fr.node.word <;> simp [pathWordCount, List.filter, hw, Nat.add_comm]

theorem popStep_frame (fr : Frame) (rest : List Frame) (ps : List Nat)
    (hlen : fr.node.payload.length ≤ 31)
    (hps : ps.length = pathWordCount (fr :: rest)) :
    ∃ ps2, popStep (frameInstr fr) ((pathPrefix (fr :: rest)).reverse) ps =
      some ((pathPrefix rest).reverse, ps2) ∧ ps2.length = pathWordCount rest := by
  have hdrop : Stack.drop_n (frameInstr fr).len ((pathPrefix (fr :: rest)).reverse)
      = (true, (pathPrefix rest).reverse) := by
    have hrev : (pathPrefix (fr :: rest)).reverse
        = fr.node.payload.reverse ++ (pathPrefix rest).reverse := by
      simp [pathPrefix, List.reverse_append]
    rw [hrev, frameInstr_len fr hlen, ← List.length_reverse fr.node.payload]
    exact Stack.drop_n_append _ _
  rw [pathWordCount_cons] at hps
  cases hw : fr.node.word with
  | false =>
    refine ⟨ps, ?_, ?_⟩
    · simp [popStep, hdrop, frameInstr_is_word, hw]
    · rw [hw] at hps; simpa using hps
  | true =>
    have hps1 : ps.length = 1 + pathWordCount rest := by
      rw [hw] at hps; simpa using hps
    cases ps with
    | nil =>
      rw [List.length_nil] at hps1; omega
    | cons p ps2 =>
      refine ⟨ps2, ?_, ?_⟩
      · simp [popStep, hdrop, frameInstr_is_word, hw, Stack.pop]
      · rw [List.length_cons] at hps1; omega

theorem chainPop_none {path : List Frame} (h : chainPop path = none) :
    tailEnc path = [] ∧ pendingAbove path = [] := by
  induction path with
  | nil => simp [tailEnc, pendingAbove]
  | cons fr rest ih =>
    rw [chainPop] at h
    by_cases he : fr.rest.isEmpty
    · rw [if_pos he] at h
      have hr : fr.rest = [] := List.isEmpty_iff.mp he
      obtain ⟨h1, h2⟩ := ih h
      simp [tailEnc, pendingAbove, hr, encForest, forestWords, h1, h2]
    · rw [if_neg he] at h; cases h

theorem chainPop_some {path : List Frame} {fr : Frame} {rest : List Frame}
    (hwf : wfPath path = true) (h : chainPop path = some (fr, rest)) :
    fr.rest ≠ [] ∧ tailEnc path = encForest fr.rest ++ tailEnc rest ∧
    pendingAbove path = forestWords (pathPrefix rest) fr.rest ++ pendingAbove rest ∧
    wfPath rest = true ∧ wfForest (pathPrefix rest) (fr.node :: fr.rest) = true := by
  induction path with
  | nil => simp [chainPop] at h
  | cons fr0 rest0 ih =>
    obtain ⟨hwfF, hwfR⟩ := wfPath_cons hwf
    rw [chainPop] at h
    by_cases he : fr0.rest.isEmpty
    · rw [if_pos he] at h
      have hr : fr0.rest = [] := List.isEmpty_iff.mp he
      obtain ⟨g1, g2, g3, g4, g5⟩ := ih hwfR h
      exact ⟨g1, by simp [tailEnc, hr, encForest, g2],
        by simp [pendingAbove, hr, forestWords, g3], g4, g5⟩
    · rw [if_neg he] at h
      obtain ⟨rfl, rfl⟩ : fr0 = fr ∧ rest0 = rest := Prod.mk.inj (Option.some.inj h)
      refine ⟨by simpa using he, rfl, rfl, hwfR, hwfF⟩

theorem chainPop_ne_none {path : List Frame} (h : pendingAbove path ≠ []) :
    chainPop path ≠ none := by
  induction path with
  | nil => simp [pendingAbove] at h
  | cons fr rest ih =>
    rw [chainPop]
    by_cases he : fr.rest.isEmpty
    · rw [if_pos he]
      apply ih
      have hr : fr.rest = [] := List.isEmpty_iff.mp he
      simpa [pendingAbove, hr, forestWords] using h
    · rw [if_neg he]; simp

theorem backtrackLast_spec :
    ∀ (path : List Frame) (ps : List Nat), wfPath path = true →
      ps.length = pathWordCount path →
      (chainPop path = none →
        backtrackLast (pathInstrs path) ((pathPrefix path).reverse) ps = .stopped [] []) ∧
      (∀ fr rest, chainPop path = some (fr, rest) →
        ∃ ps2, backtrackLast (pathInstrs path) ((pathPrefix path).reverse) ps =
          .go (pathInstrs rest) ((pathPrefix rest).reverse) ps2 ∧
          ps2.length = pathWordCount rest) := by
  intro path
  induction path with
  | nil =>
    intro ps _ hps
    constructor
    · intro _
      have : ps = [] := List.eq_nil_of_length_eq_zero (by simpa [pathWordCount] using hps)
      simp [pathInstrs, pathPrefix, backtrackLast, this]
    · intro fr rest h; simp [chainPop] at h
  | cons fr0 rest0 ih =>
    intro ps hwf hps
    obtain ⟨hwfF, hwfR⟩ := wfPath_cons hwf
    have hlen : fr0.node.payload.length ≤ 31 := (wfForest_head hwfF).1
    obtain ⟨ps2, hpop, hps2⟩ := popStep_frame fr0 rest0 ps hlen hps
    have hunfold : backtrackLast (pathInstrs (fr0 :: rest0))
        ((pathPrefix (fr0 :: rest0)).reverse) ps =
        (if (frameInstr fr0).is_last then
          backtrackLast (pathInstrs rest0) ((pathPrefix rest0).reverse) ps2
        else .go (pathInstrs rest0) ((pathPrefix rest0).reverse) ps2) := by
      simp only [pathInstrs, List.map_cons, backtrackLast, hpop]
    constructor
    · intro hcp
      rw [chainPop] at hcp
      by_cases he : fr0.rest.isEmpty
      · rw [if_pos he] at hcp
        rw [hunfold, frameInstr_is_last, if_pos he]
        exact (ih ps2 hwfR hps2).1 hcp
      · rw [if_neg he] at hcp; cases hcp
    · intro fr rest hcp
      rw [chainPop] at hcp
      by_cases he : fr0.rest.isEmpty
      · rw [if_pos he] at hcp
        obtain ⟨ps3, hgo, hl⟩ := (ih ps2 hwfR hps2).2 fr rest hcp
        exact ⟨ps3, by rw [hunfold, frameInstr_is_last, if_pos he]; exact hgo, hl⟩
      · rw [if_neg he] at hcp
        obtain ⟨rfl, rfl⟩ : fr0 = fr ∧ rest0 = rest := Prod.mk.inj (Option.some.inj hcp)
        refine ⟨ps2, ?_, hps2⟩
        rw [hunfold, frameInstr_is_last, if_neg he]

theorem lt_length_of_drop_cons {l t : List Nat} {n x : Nat}
    (h : l.drop n = x :: t) : n < l.length := by
  by_contra hle
  rw [List.drop_eq_nil_of_le (by omega)] at h
  cases h

theorem pushExecute_spec :
    ∀ (g : List Node), ∀ (path : List Frame) (prog : List Nat) (pc fuel : Nat) (ps : List Nat),
      wfForest (pathPrefix path) g = true →
      wfPath path = true →
      ps.length = pathWordCount path →
      prog.drop pc = encForest g ++ tailEnc path →
      prog.length - pc < fuel →
      g ≠ [] →
      ∃ wd fr rest ps2 pc2,
        pushExecute prog fuel pc (pathInstrs path) ((pathPrefix path).reverse) ps =
          .out (some wd) (pathInstrs (fr :: rest)) ((pathPrefix (fr :: rest)).reverse) ps2 pc2 ∧
        fr.node.word = true ∧
        wfPath (fr :: rest) = true ∧
        ps2.length = pathWordCount (fr :: rest) ∧
        prog.drop pc2 = encForest fr.node.children ++ tailEnc (fr :: rest) ∧
        wd = pathPrefix (fr :: rest) ∧
        forestWords (pathPrefix path) g ++ pendingAbove path =
          wd :: (forestWords (pathPrefix (fr :: rest)) fr.node.children ++
            pendingAbove (fr :: rest)) := by
  intro g
  induction g using forestRec with
  | hnil => intro path prog pc fuel ps _ _ _ _ _ hne; exact absurd rfl hne
  | hcons w pr pl ch ns ihc ihn =>
    intro path prog pc fuel ps hwfg hwfp hps hdrop hfuel _
    obtain ⟨h1, h2, h3, h4, h5, h6, h7⟩ := wfForest_cons hwfg
    rw [encForest, List.cons_append] at hdrop
    have hb : getAt prog pc = some (8 * pl.length + ((if w then 4 else 0) +
        (if ch.isEmpty then 0 else 2) + (if ns.isEmpty then 1 else 0))) :=
      getAt_of_drop_cons hdrop
    have hpc : pc < prog.length := lt_length_of_drop_cons hdrop
    have hiw : (Instr.mk (8 * pl.length + ((if w then 4 else 0) +
        (if ch.isEmpty then 0 else 2) + (if ns.isEmpty then 1 else 0)))).is_word = w :=
      ctrl_is_word ns.isEmpty (Node.mk w pr pl ch)
    have hlen : (Instr.mk (8 * pl.length + ((if w then 4 else 0) +
        (if ch.isEmpty then 0 else 2) + (if ns.isEmpty then 1 else 0)))).len = pl.length :=
      ctrl_len ns.isEmpty (Node.mk w pr pl ch) h1
    cases fuel with
    | zero => omega
    | succ f =>
      cases w with
      | true =>
        simp at hb hiw hlen
        have hd0 : prog.drop pc = (8 * pl.length + (4 +
            (if ch.isEmpty then 0 else 2) + (if ns.isEmpty then 1 else 0))) ::
            (pr :: (pl ++ (encForest ch ++ (encForest ns ++ tailEnc path)))) := by
          simpa [List.append_assoc] using hdrop
        have hd1 : prog.drop (pc + 1) =
            pr :: (pl ++ (encForest ch ++ (encForest ns ++ tailEnc path))) :=
          drop_succ_of_drop_cons hd0
        have hd2 : prog.drop (pc + 1 + 1) =
            pl ++ (encForest ch ++ (encForest ns ++ tailEnc path)) :=
          drop_succ_of_drop_cons hd1
        have hpp := pushPayload_spec prog pl (encForest ch ++ (encForest ns ++ tailEnc path))
          ((pathPrefix path).reverse) (pc + 1 + 1) hd2
        have hd3 : prog.drop (pc + 1 + 1 + pl.length) =
            encForest ch ++ (encForest ns ++ tailEnc path) :=
          drop_add_of_drop_append hd2
        have hvu : validUtf8 ((pl.reverse ++ (pathPrefix path).reverse).reverse) = true := by
          have : (pl.reverse ++ (pathPrefix path).reverse).reverse = pathPrefix path ++ pl := by
            simp
          rw [this]; exact h5 rfl
        refine ⟨pathPrefix path ++ pl, ⟨Node.mk true pr pl ch, ns⟩, path,
          (pc + 1) :: ps, pc + 1 + 1 + pl.length, ?_, rfl, ?_, ?_, ?_, ?_, ?_⟩
        · have hvu2 : validUtf8 (pathPrefix path ++ pl) = true := h5 rfl
          simp [pushExecute, hb, Stack.push, hiw, hlen, hpp, hvu, hvu2, pathInstrs,
            frameInstr, ctrlByte, pathPrefix, Node.word, Node.payload, Node.children,
            List.reverse_append]
        · simp only [wfPath]
          have : wfForest (pathPrefix path) (Node.mk true pr pl ch :: ns) = true := hwfg
          simp [this, hwfp]
        · rw [pathWordCount_cons]
          simp [Node.word, hps]
          omega
        · rw [hd3]
          simp [tailEnc, Node.children, List.append_assoc]
        · simp [pathPrefix, Node.payload]
        · simp [forestWords, pendingAbove, pathPrefix, Node.payload, Node.children,
            List.append_assoc]
      | false =>
        simp at hb hiw hlen
        have hch : ch ≠ [] := by
          rcases h4 with h | h
          · cases h
          · exact h
        have hd0 : prog.drop pc = (8 * pl.length +
            ((if ch.isEmpty then 0 else 2) + (if ns.isEmpty then 1 else 0))) ::
            (pl ++ (encForest ch ++ (encForest ns ++ tailEnc path))) := by
          simpa [List.append_assoc] using hdrop
        have hd1 : prog.drop (pc + 1) =
            pl ++ (encForest ch ++ (encForest ns ++ tailEnc path)) :=
          drop_succ_of_drop_cons hd0
        have hpp := pushPayload_spec prog pl (encForest ch ++ (encForest ns ++ tailEnc path))
          ((pathPrefix path).reverse) (pc + 1) hd1
        have hd2 : prog.drop (pc + 1 + pl.length) =
            encForest ch ++ (encForest ns ++ tailEnc path) :=
          drop_add_of_drop_append hd1
        have hwfp2 : wfPath (⟨Node.mk false pr pl ch, ns⟩ :: path) = true := by
          simp only [wfPath]
          have : wfForest (pathPrefix path) (Node.mk false pr pl ch :: ns) = true := hwfg
          simp [this, hwfp]
        have hps2 : ps.length = pathWordCount (⟨Node.mk false pr pl ch, ns⟩ :: path) := by
          rw [pathWordCount_cons]
          simp [Node.word, hps]
        have hdrop2 : prog.drop (pc + 1 + pl.length) =
            encForest ch ++ tailEnc (⟨Node.mk false pr pl ch, ns⟩ :: path) := by
          rw [hd2]
          simp [tailEnc, List.append_assoc]
        have hwf2 : wfForest (pathPrefix (⟨Node.mk false pr pl ch, ns⟩ :: path)) ch = true := by
          simpa [pathPrefix, Node.payload] using h6
        have hfuel2 : prog.length - (pc + 1 + pl.length) < f := by omega
        obtain ⟨wd, fr2, rest2, ps2, pc2, hrun, hfw, hfp, hfl, hfd, hfe, hpend⟩ :=
          ihc (⟨Node.mk false pr pl ch, ns⟩ :: path) prog (pc + 1 + pl.length) f ps
            hwf2 hwfp2 hps2 hdrop2 hfuel2 hch
        refine ⟨wd, fr2, rest2, ps2, pc2, ?_, hfw, hfp, hfl, hfd, hfe, ?_⟩
        · have hstep : pushExecute prog (f + 1) pc (pathInstrs path)
              ((pathPrefix path).reverse) ps =
              pushExecute prog f (pc + 1 + pl.length)
                (pathInstrs (⟨Node.mk false pr pl ch, ns⟩ :: path))
                ((pathPrefix (⟨Node.mk false pr pl ch, ns⟩ :: path)).reverse) ps := by
            simp [pushExecute, hb, Stack.push, hiw, hlen, hpp, pathInstrs, frameInstr,
              ctrlByte, pathPrefix, Node.word, Node.payload, Node.children,
              List.reverse_append]
          rw [hstep]
          exact hrun
        · rw [← hpend]
          simp [forestWords, pendingAbove, pathPrefix, Node.payload,
            List.append_assoc]

theorem wfForest_tail {pre : List Nat} {n : Node} {ns : List Node}
    (h : wfForest pre (n :: ns) = true) : wfForest pre ns = true :=
  (wfForest_head h).2.2.2.2

theorem next_word_exhausted {vm : T9Vm} (hcs : vm.control_stack = [])
    (hdrop : vm.program.drop vm.program_ctr = []) :
    vm.next_word = some (none, vm) := by
  obtain ⟨cs, ws, ps, pc, prog⟩ := vm
  simp only at hcs hdrop
  subst hcs
  have hget : getAt prog pc = none := getAt_of_drop_nil hdrop
  simp [T9Vm.next_word, Stack.peek, pushExecute, hget, finishExec]

theorem execGo (prog : List Nat) (pc : Nat) (path2 : List Frame) (g : List Node)
    (ps : List Nat) (pending : List (List Nat))
    (hwfg : wfForest (pathPrefix path2) g = true)
    (hwfp : wfPath path2 = true)
    (hps : ps.length = pathWordCount path2)
    (hdrop : prog.drop pc = encForest g ++ tailEnc path2)
    (hg : g ≠ [])
    (hpend : pending = forestWords (pathPrefix path2) g ++ pendingAbove path2) :
    ∃ wd rest2 vm2, pending = wd :: rest2 ∧
      finishExec prog (pushExecute prog (prog.length + 1) pc (pathInstrs path2)
        ((pathPrefix path2).reverse) ps) = some (some wd, vm2) ∧
      (∀ hb : ∀ b ∈ prog, b < 256, InterInv vm2 rest2) ∧
      vm2.word_stack = wd.reverse := by
  have hfuel : prog.length - pc < prog.length + 1 := by omega
  obtain ⟨wd, fr, rest, ps2, pc2, hrun, hfw, hfp, hfl, hfd, hfe, hpd⟩ :=
    pushExecute_spec g path2 prog pc (prog.length + 1) ps hwfg hwfp hps hdrop hfuel hg
  refine ⟨wd, forestWords (pathPrefix (fr :: rest)) fr.node.children ++
    pendingAbove (fr :: rest), ⟨pathInstrs (fr :: rest), (pathPrefix (fr :: rest)).reverse,
      ps2, pc2, prog⟩, ?_, ?_, ?_, ?_⟩
  · rw [hpend, hpd]
  · rw [hrun, finishExec]
  · intro hb
    exact ⟨hb, Or.inr ⟨fr, rest, hfw, hfp, rfl, rfl, hfl, hfd, rfl⟩⟩
  · simp [hfe]

theorem interInv_step {vm : T9Vm} {pending : List (List Nat)}
    (h : InterInv vm pending) :
    (pending = [] → ∃ vm2, vm.next_word = some (none, vm2) ∧ InterInv vm2 [] ∧
      vm2.next_word = some (none, vm2)) ∧
    (∀ wd rest, pending = wd :: rest → ∃ vm2, vm.next_word = some (some wd, vm2) ∧
      InterInv vm2 rest ∧ vm2.word_stack = wd.reverse) := by
  obtain ⟨hbytes, h⟩ := h
  rcases h with ⟨roots, hwf, hcs, hws, hps, hdrop, hpend⟩ |
    ⟨fr, rest, hfw, hwfp, hcs, hws, hps, hdrop, hpend⟩
  · -- fresh / exhausted state: control stack empty
    obtain ⟨cs, ws, ps, pc, prog⟩ := vm
    simp only at hbytes hcs hws hps hdrop
    subst hcs; subst hws; subst hps
    cases roots with
    | nil =>
      have hnil : prog.drop pc = [] := by simpa [encForest] using hdrop
      have hfix : T9Vm.next_word ⟨[], [], [], pc, prog⟩ = some (none, ⟨[], [], [], pc, prog⟩) :=
        next_word_exhausted rfl hnil
      constructor
      · intro _
        refine ⟨⟨[], [], [], pc, prog⟩, hfix, ⟨hbytes,
          Or.inl ⟨[], ?_, rfl, rfl, rfl, ?_, ?_⟩⟩, hfix⟩
        · simp [wfForest]
        · simpa [encForest] using hnil
        · simp [forestWords]
      · intro wd rest hp
        rw [hpend] at hp
        simp [forestWords] at hp
    | cons n ns =>
      have hpd : pending = forestWords [] (n :: ns) ++ pendingAbove [] := by
        simp [pendingAbove, hpend]
      have hdrop2 : prog.drop pc = encForest (n :: ns) ++ tailEnc [] := by
        simp [tailEnc, hdrop]
      obtain ⟨wd, rest2, vm2, hpe, hrun, hinv, hwd⟩ :=
        execGo prog pc [] (n :: ns) [] pending
          (by simpa [pathPrefix] using hwf) rfl rfl hdrop2 (by simp) hpd
      constructor
      · intro hp
        rw [hp] at hpe; cases hpe
      · intro wd0 rest0 hp
        rw [hp] at hpe
        obtain ⟨rfl, rfl⟩ : wd0 = wd ∧ rest0 = rest2 := by
          injection hpe with h1 h2; exact ⟨h1, h2⟩
        refine ⟨vm2, ?_, hinv hbytes, hwd⟩
        rw [show T9Vm.next_word ⟨[], [], [], pc, prog⟩ =
          finishExec prog (pushExecute prog (prog.length + 1) pc [] [] []) from rfl]
        simpa [pathInstrs, pathPrefix] using hrun
  · -- just yielded the word of frame `fr`
    obtain ⟨cs, ws, ps, pc, prog⟩ := vm
    simp only at hbytes hfw hcs hws hps hdrop hpend
    subst hcs; subst hws
    have hwfF := (wfPath_cons hwfp).1
    have hwfR := (wfPath_cons hwfp).2
    have hpeek : Stack.peek (pathInstrs (fr :: rest)) = some (frameInstr fr) := rfl
    by_cases hch : fr.node.children = []
    · -- the yielded node is a leaf: backtrack
      have hhc : (frameInstr fr).has_children = false := by
        rw [frameInstr_has_children, hch]; rfl
      have hlen : fr.node.payload.length ≤ 31 := (wfForest_head hwfF).1
      obtain ⟨ps2, hpop, hps2⟩ := popStep_frame fr rest ps hlen hps
      have hpopc : T9Vm.pop_cstack ⟨pathInstrs (fr :: rest), (pathPrefix (fr :: rest)).reverse,
          ps, pc, prog⟩ = some (frameInstr fr, ⟨pathInstrs rest, (pathPrefix rest).reverse,
          ps2, pc, prog⟩) := by
        rw [show pathInstrs (fr :: rest) = frameInstr fr :: pathInstrs rest from rfl,
          T9Vm.pop_cstack]
        simp [hpop]
      have hdrop2 : prog.drop pc = encForest fr.rest ++ tailEnc rest := by
        rw [hdrop, hch]
        simp [encForest, tailEnc]
      have hpend2 : pending = forestWords (pathPrefix rest) fr.rest ++ pendingAbove rest := by
        rw [hpend, hch]
        simp [forestWords, pendingAbove]
      by_cases hlast : fr.rest = []
      · -- last sibling: run the backtracking chain
        have hil : (frameInstr fr).is_last = true := by
          rw [frameInstr_is_last, hlast]; rfl
        rcases hcp : chainPop rest with _ | ⟨fr2, rest2⟩
        · -- chain exhausts the control stack: end of sequence
          obtain ⟨htail, hpab⟩ := chainPop_none hcp
          have hstop := (backtrackLast_spec rest ps2 hwfR hps2).1 hcp
          have hnw : T9Vm.next_word ⟨pathInstrs (fr :: rest),
              (pathPrefix (fr :: rest)).reverse, ps, pc, prog⟩ =
              some (none, ⟨[], [], [], pc, prog⟩) := by
            rw [T9Vm.next_word]
            simp only [hpeek, hhc, hpopc, hil, hstop]
            rfl
          have hnil : prog.drop pc = [] := by
            rw [hdrop2, hlast]
            simp [encForest, htail]
          have hpnil : pending = [] := by
            rw [hpend2, hlast]
            simp [forestWords, hpab]
          constructor
          · intro _
            refine ⟨⟨[], [], [], pc, prog⟩, hnw, ⟨hbytes,
              Or.inl ⟨[], ?_, rfl, rfl, rfl, ?_, ?_⟩⟩,
              next_word_exhausted rfl hnil⟩
            · simp [wfForest]
            · simpa [encForest] using hnil
            · simp [forestWords]
          · intro wd0 rest0 hp
            rw [hpnil] at hp; cases hp
        · -- chain stops at a frame with remaining siblings
          obtain ⟨hne2, htail, hpab, hwfR2, hwfF2⟩ := chainPop_some hwfR hcp
          obtain ⟨ps3, hgo, hps3⟩ := (backtrackLast_spec rest ps2 hwfR hps2).2 fr2 rest2 hcp
          have hdrop3 : prog.drop pc = encForest fr2.rest ++ tailEnc rest2 := by
            rw [hdrop2, hlast, htail]
            simp [encForest]
          have hpend3 : pending = forestWords (pathPrefix rest2) fr2.rest ++
              pendingAbove rest2 := by
            rw [hpend2, hlast, hpab]
            simp [forestWords]
          obtain ⟨wd, rest3, vm2, hpe, hrun, hinv, hwd⟩ :=
            execGo prog pc rest2 fr2.rest ps3 pending
              (wfForest_tail hwfF2) hwfR2 hps3 hdrop3 hne2 hpend3
          have hnw : T9Vm.next_word ⟨pathInstrs (fr :: rest),
              (pathPrefix (fr :: rest)).reverse, ps, pc, prog⟩ =
              finishExec prog (pushExecute prog (prog.length + 1) pc
                (pathInstrs rest2) ((pathPrefix rest2).reverse) ps3) := by
            rw [T9Vm.next_word]
            simp only [hpeek, hhc, hpopc, hil, hgo]
            rfl
          constructor
          · intro hp
            rw [hp] at hpe; cases hpe
          · intro wd0 rest0 hp
            rw [hp] at hpe
            obtain ⟨rfl, rfl⟩ : wd0 = wd ∧ rest0 = rest3 := by
              injection hpe with h1 h2; exact ⟨h1, h2⟩
            exact ⟨vm2, by rw [hnw]; exact hrun, hinv hbytes, hwd⟩
      · -- not the last sibling: its next sibling is at the cursor
        have hil : (frameInstr fr).is_last = false := by
          rw [frameInstr_is_last]
          simpa using hlast
        obtain ⟨wd, rest3, vm2, hpe, hrun, hinv, hwd⟩ :=
          execGo prog pc rest fr.rest ps2 pending
            (wfForest_tail hwfF) hwfR hps2 hdrop2 hlast hpend2
        have hnw : T9Vm.next_word ⟨pathInstrs (fr :: rest),
            (pathPrefix (fr :: rest)).reverse, ps, pc, prog⟩ =
            finishExec prog (pushExecute prog (prog.length + 1) pc
              (pathInstrs rest) ((pathPrefix rest).reverse) ps2) := by
          rw [T9Vm.next_word]
          simp only [hpeek, hhc, hpopc, hil]
          rfl
        constructor
        · intro hp
          rw [hp] at hpe; cases hpe
        · intro wd0 rest0 hp
          rw [hp] at hpe
          obtain ⟨rfl, rfl⟩ : wd0 = wd ∧ rest0 = rest3 := by
            injection hpe with h1 h2; exact ⟨h1, h2⟩
          exact ⟨vm2, by rw [hnw]; exact hrun, hinv hbytes, hwd⟩
    · -- the yielded node has children: descend into them
      have hhc : (frameInstr fr).has_children = true := by
        rw [frameInstr_has_children]
        simpa using hch
      have hwfch : wfForest (pathPrefix (fr :: rest)) fr.node.children = true := by
        have := (wfForest_head hwfF).2.2.2.1
        simpa [pathPrefix] using this
      obtain ⟨wd, rest3, vm2, hpe, hrun, hinv, hwd⟩ :=
        execGo prog pc (fr :: rest) fr.node.children ps pending
          hwfch hwfp hps hdrop hch hpend
      have hnw : T9Vm.next_word ⟨pathInstrs (fr :: rest),
          (pathPrefix (fr :: rest)).reverse, ps, pc, prog⟩ =
          finishExec prog (pushExecute prog (prog.length + 1) pc
            (pathInstrs (fr :: rest)) ((pathPrefix (fr :: rest)).reverse) ps) := by
        rw [T9Vm.next_word]
        simp only [hpeek, hhc]
        rfl
      constructor
      · intro hp
        rw [hp] at hpe; cases hpe
      · intro wd0 rest0 hp
        rw [hp] at hpe
        obtain ⟨rfl, rfl⟩ : wd0 = wd ∧ rest0 = rest3 := by
          injection hpe with h1 h2; exact ⟨h1, h2⟩
        exact ⟨vm2, by rw [hnw]; exact hrun, hinv hbytes, hwd⟩

theorem interInv_runWords : ∀ (fuel : Nat) (vm : T9Vm) (pending : List (List Nat)),
    InterInv vm pending → runWords vm fuel = pending.take fuel := by
  intro fuel
  induction fuel with
  | zero => intro vm pending _; simp [runWords]
  | succ f ih =>
    intro vm pending h
    cases pending with
    | nil =>
      obtain ⟨vm2, hnw, _, _⟩ := (interInv_step h).1 rfl
      simp [runWords, hnw]
    | cons wd rest =>
      obtain ⟨vm2, hnw, hinv, _⟩ := (interInv_step h).2 wd rest rfl
      simp [runWords, hnw, ih vm2 rest hinv]

theorem interInv_runState : ∀ (k : Nat) (vm : T9Vm) (pending : List (List Nat)),
    InterInv vm pending →
    ∃ vm2, runState vm k = some vm2 ∧ InterInv vm2 (pending.drop k) := by
  intro k
  induction k with
  | zero => intro vm pending h; exact ⟨vm, rfl, by simpa using h⟩
  | succ f ih =>
    intro vm pending h
    cases pending with
    | nil =>
      obtain ⟨vm2, hnw, hinv, _⟩ := (interInv_step h).1 rfl
      obtain ⟨vm3, hrs, hinv3⟩ := ih vm2 [] hinv
      exact ⟨vm3, by simp [runState, hnw, hrs], by simpa using hinv3⟩
    | cons wd rest =>
      obtain ⟨vm2, hnw, hinv, _⟩ := (interInv_step h).2 wd rest rfl
      obtain ⟨vm3, hrs, hinv3⟩ := ih vm2 rest hinv
      exact ⟨vm3, by simp [runState, hnw, hrs], hinv3⟩

theorem interInv_init (roots : List Node) (h : wfForest [] roots = true) :
    InterInv (T9Vm.init (encForest roots)) (forestWords [] roots) := by
  refine ⟨encForest_bytes roots [] h, Or.inl ⟨roots, h, rfl, rfl, rfl, ?_, rfl⟩⟩
  simp [T9Vm.init]

theorem interInv_no_crash {vm : T9Vm} {pending : List (List Nat)}
    (h : InterInv vm pending) : vm.next_word ≠ none := by
  cases pending with
  | nil =>
    obtain ⟨vm2, hnw, _, _⟩ := (interInv_step h).1 rfl
    simp [hnw]
  | cons wd rest =>
    obtain ⟨vm2, hnw, _, _⟩ := (interInv_step h).2 wd rest rfl
    simp [hnw]

theorem pathPrefix_length (path : List Frame) (h : wfPath path = true) :
    (pathPrefix path).length = ((pathInstrs path).map Instr.len).sum := by
  induction path with
  | nil => simp [pathPrefix, pathInstrs]
  | cons fr rest ih =>
    obtain ⟨hwfF, hwfR⟩ := wfPath_cons h
    have hlen := frameInstr_len fr (wfForest_head hwfF).1
    simp [pathPrefix, pathInstrs, hlen, ih hwfR]
    omega

theorem pathInstrs_filter_word (path : List Frame) :
    ((pathInstrs path).filter Instr.is_word).length = pathWordCount path := by
  induction path with
  | nil => rfl
  | cons fr rest ih =>
    rw [pathWordCount_cons, ← ih]
    cases hw : fr.node.word with
    | false =>
      have hfi : (frameInstr fr).is_word = false := by rw [frameInstr_is_word, hw]
      simp [pathInstrs, List.filter_cons, hfi]
    | true =>
      have hfi : (frameInstr fr).is_word = true := by rw [frameInstr_is_word, hw]
      simp [pathInstrs, List.filter_cons, hfi]
      omega

theorem interInv_shape {vm : T9Vm} {pending : List (List Nat)} (h : InterInv vm pending) :
    ∃ path, wfPath path = true ∧ vm.control_stack = pathInstrs path ∧
      vm.word_stack = (pathPrefix path).reverse ∧
      vm.prio_addr_stack.length = pathWordCount path := by
  obtain ⟨_, h⟩ := h
  rcases h with ⟨roots, _, hcs, hws, hps, _, _⟩ | ⟨fr, rest, _, hwfp, hcs, hws, hps, _, _⟩
  · exact ⟨[], rfl, by simp [pathInstrs, hcs], by simp [pathPrefix, hws],
      by simp [pathWordCount, hps]⟩
  · exact ⟨fr :: rest, hwfp, hcs, hws, hps⟩

theorem forestWords_length : ∀ (ns : List Node), ∀ (pre : List Nat),
    (forestWords pre ns).length = wordNodeCount ns := by
  intro ns
  induction ns using forestRec with
  | hnil => intro pre; simp [forestWords, wordNodeCount]
  | hcons w pr pl ch ns ihc ihn =>
    intro pre
    cases w <;> simp [forestWords, wordNodeCount, ihc, ihn] <;> omega

/-- Claim C1: for every well-formed program buffer (the pre-order encoding of a
well-formed forest), the words returned by repeated `next_word` calls from the
initial state are exactly the pre-order, sibling-order word list the program
encodes — no sorting or re-ranking — and the number of words equals the number
of word-terminating nodes. -/
theorem next_word_enumerates_preorder (roots : List Node)
    (h : wfForest [] roots = true) :
    (∀ fuel, runWords (T9Vm.init (encForest roots)) fuel =
      (forestWords [] roots).take fuel) ∧
    (forestWords [] roots).length = wordNodeCount roots := by
  constructor
  · intro fuel
    exact interInv_runWords fuel _ _ (interInv_init roots h)
  · exact forestWords_length roots []

/-- Witness for C1 at the one-word program `[x(1), PRIO, 'a']`. -/
theorem next_word_enumerates_preorder_witness :
    wfForest [] [Node.mk true 0 [97] []] = true ∧
    runWords (T9Vm.init (encForest [Node.mk true 0 [97] []])) 2 =
      (forestWords [] [Node.mk true 0 [97] []]).take 2 := by
  have hwf : wfForest [] [Node.mk true 0 [97] []] = true := by
    simp [wfForest, validUtf8, utf8Run, utf8Step, isCont]
  exact ⟨hwf, (next_word_enumerates_preorder [Node.mk true 0 [97] []] hwf).1 2⟩

set_option maxRecDepth 10000 in
/-- Claim C2: on the golden `DEMO` program, repeated `next_word` calls produce
exactly the 17 expected words in order, followed by end-of-sequence (the
18-call run panics nowhere, ends with all stacks empty and the cursor at the
end of the 68-byte buffer, and that exhausted state is a fixpoint). -/
theorem demo_program_word_sequence :
    runWords (T9Vm.init DEMO) 18 =
      [str "a", str "aaron", str "aarons", str "ab", str "able", str "apple",
       str "applets", str "apples", str "appnote", str "appnote_a", str "appnote_ab",
       str "appnote_abc", str "appnote_abcd", str "appnote_abe", str "appnote_abef",
       str "as", str "bite"] ∧
    runState (T9Vm.init DEMO) 18 = some ⟨[], [], [], 68, DEMO⟩ ∧
    T9Vm.next_word ⟨[], [], [], 68, DEMO⟩ = some (none, ⟨[], [], [], 68, DEMO⟩) := by
  refine ⟨by decide, by decide, by decide⟩

/-- Claim C3 (the code lacks the distinct error the claim requires): a program
starting with opcode 000, a program whose word is not valid UTF-8, and a
program truncated mid-node all make `next_word` return the very same `None`
that the empty program returns for normal end-of-sequence — malformed
conditions are merged with exhaustion, not reported distinctly. -/
theorem malformed_conditions_merge_into_none :
    (T9Vm.next_word (T9Vm.init [0])).map Prod.fst = some none ∧
    (T9Vm.next_word (T9Vm.init [xOp 1, 0, 255])).map Prod.fst = some none ∧
    (T9Vm.next_word (T9Vm.init [yOp 2, 0, 97])).map Prod.fst = some none ∧
    (T9Vm.next_word (T9Vm.init [])).map Prod.fst = some none := by
  refine ⟨by decide, by decide, by decide, by decide⟩

/-- Claim C4, counterexample: `drop_n 2` on the one-element stack `[7]` fails
but empties the stack instead of leaving it unchanged. -/
theorem drop_n_underflow_not_unchanged :
    Stack.drop_n 2 [(7 : Nat)] = (false, []) ∧ ([] : List Nat) ≠ [7] := by
  refine ⟨by decide, by decide⟩

/-- Claim C4, amended: with fewer than `n` elements `drop_n n` fails with an
underflow error but leaves the stack empty (it pops every element before
failing); with at least `n` elements it removes exactly the top `n` and
succeeds. -/
theorem drop_n_spec (α : Type) : ∀ (n : Nat) (s : List α),
    (s.length < n → Stack.drop_n n s = (false, [])) ∧
    (n ≤ s.length → Stack.drop_n n s = (true, s.drop n)) := by
  intro n
  induction n with
  | zero =>
    intro s
    exact ⟨by omega, fun _ => by simp [Stack.drop_n]⟩
  | succ m ih =>
    intro s
    cases s with
    | nil =>
      refine ⟨fun _ => by simp [Stack.drop_n], fun h => ?_⟩
      simp at h
    | cons x s =>
      constructor
      · intro h
        simpa [Stack.drop_n] using (ih s).1 (by simpa using h)
      · intro h
        simpa [Stack.drop_n] using (ih s).2 (by simpa using h)

/-- Witness for the amended C4 on concrete stacks. -/
theorem drop_n_spec_witness :
    Stack.drop_n 2 [(7 : Nat)] = (false, []) ∧
    Stack.drop_n 1 [(7 : Nat)] = (true, []) :=
  ⟨(drop_n_spec Nat 2 [7]).1 (by decide), (drop_n_spec Nat 1 [7]).2 (by decide)⟩

/-- Claim C5 (the code has no capacity error): `Stack::push` always succeeds —
it returns `Ok` for every stack, of any size, so there is no fixed maximum at
which a capacity error could be reported, and the overflow checks in
`next_word` are dead code (debug-only assertions merged into `None`). -/
theorem stack_push_never_fails : ∀ (s : List Nat) (x : Nat),
    (Stack.push x s).1 = true ∧ (Stack.push x s).2 = x :: s :=
  fun _ _ => ⟨rfl, rfl⟩

/-- Claim C6: `reset` empties all three stacks, returns the cursor to the
start, and yields a state identical to a freshly constructed engine, so the
word sequence after a reset is byte-for-byte that of the fresh engine. -/
theorem reset_restarts_identically (vm : T9Vm) :
    vm.reset.control_stack = [] ∧ vm.reset.word_stack = [] ∧
    vm.reset.prio_addr_stack = [] ∧ vm.reset.program_ctr = 0 ∧
    vm.reset = T9Vm.init vm.program ∧
    ∀ fuel, runWords vm.reset fuel = runWords (T9Vm.init vm.program) fuel :=
  ⟨rfl, rfl, rfl, rfl, rfl, fun _ => rfl⟩

/-- Claim C7: on a well-formed program, once `next_word` has reported
end-of-sequence the reached state is a fixpoint — every further call reports
end-of-sequence again with the state unchanged and never errors (never
panics); the empty program reports end-of-sequence on the very first call. -/
theorem exhaustion_is_permanent (roots : List Node) (h : wfForest [] roots = true) :
    (∀ (k : Nat) (vm1 vm2 : T9Vm),
      runState (T9Vm.init (encForest roots)) k = some vm1 →
      vm1.next_word = some (none, vm2) →
      vm2.next_word = some (none, vm2)) ∧
    T9Vm.next_word (T9Vm.init []) = some (none, T9Vm.init []) := by
  constructor
  · intro k vm1 vm2 hrs hnw
    obtain ⟨vm1b, hrsb, hinv⟩ := interInv_runState k _ _ (interInv_init roots h)
    rw [hrs] at hrsb
    obtain rfl : vm1 = vm1b := Option.some.inj hrsb
    cases hpd : (forestWords [] roots).drop k with
    | nil =>
      rw [hpd] at hinv
      obtain ⟨vm3, hnw3, _, hfix⟩ := (interInv_step hinv).1 rfl
      rw [hnw3] at hnw
      obtain ⟨-, rfl⟩ := Prod.mk.inj (Option.some.inj hnw)
      exact hfix
    | cons w2 rest2 =>
      rw [hpd] at hinv
      obtain ⟨vm3, hnw3, _, _⟩ := (interInv_step hinv).2 w2 rest2 rfl
      rw [hnw3] at hnw
      simp at hnw
  · exact next_word_exhausted rfl rfl

/-- Witness for C7: the one-word program `[13, 0, 97]` = `x(1), PRIO, 'a'`,
after its word has been produced and exhaustion reported, stays exhausted. -/
theorem exhaustion_is_permanent_witness :
    T9Vm.next_word ⟨[], [], [], 3, [13, 0, 97]⟩ =
      some (none, ⟨[], [], [], 3, [13, 0, 97]⟩) := by
  have hwf : wfForest [] [Node.mk true 0 [97] []] = true := by
    simp [wfForest, validUtf8, utf8Run, utf8Step, isCont]
  have henc : encForest [Node.mk true 0 [97] []] = [13, 0, 97] := by
    simp [encForest, ctrlByte]
  refine (exhaustion_is_permanent [Node.mk true 0 [97] []] hwf).1 1
    ⟨[⟨13⟩], [97], [1], 3, [13, 0, 97]⟩ ⟨[], [], [], 3, [13, 0, 97]⟩ ?_ ?_
  · rw [henc]; decide
  · decide

/-- Claim C8: in every state reachable by `next_word` calls on a well-formed
program, the word (prefix) stack is exactly the reversed concatenation of the
payloads along the control-stack path, so its byte count is the sum of the
payload lengths recorded in the control-stack entries; and every emitted
word's length is that sum over the path that produced it. -/
theorem prefix_stack_mirrors_path (roots : List Node)
    (h : wfForest [] roots = true) (k : Nat) :
    ∃ vm1, runState (T9Vm.init (encForest roots)) k = some vm1 ∧
      (∃ path, wfPath path = true ∧ vm1.control_stack = pathInstrs path ∧
        vm1.word_stack = (pathPrefix path).reverse) ∧
      vm1.word_stack.length = (vm1.control_stack.map Instr.len).sum ∧
      ∀ wd vm2, vm1.next_word = some (some wd, vm2) →
        wd.length = (vm2.control_stack.map Instr.len).sum ∧
        vm2.word_stack = wd.reverse := by
  obtain ⟨vm1, hrs, hinv⟩ := interInv_runState k _ _ (interInv_init roots h)
  obtain ⟨path, hwfp, hcs, hws, hps⟩ := interInv_shape hinv
  refine ⟨vm1, hrs, ⟨path, hwfp, hcs, hws⟩, ?_, ?_⟩
  · rw [hws, hcs, List.length_reverse, pathPrefix_length path hwfp]
  · intro wd vm2 hnw
    cases hpd : (forestWords [] roots).drop k with
    | nil =>
      rw [hpd] at hinv
      obtain ⟨vm3, hnw3, _, _⟩ := (interInv_step hinv).1 rfl
      rw [hnw3] at hnw
      simp at hnw
    | cons w2 rest2 =>
      rw [hpd] at hinv
      obtain ⟨vm3, hnw3, hinv3, hws3⟩ := (interInv_step hinv).2 w2 rest2 rfl
      rw [hnw3] at hnw
      obtain ⟨h1, rfl⟩ := Prod.mk.inj (Option.some.inj hnw)
      obtain rfl : w2 = wd := Option.some.inj h1
      obtain ⟨path2, hwfp2, hcs2, hws2, -⟩ := interInv_shape hinv3
      constructor
      · rw [← List.length_reverse w2, ← hws3, hws2, List.length_reverse,
          pathPrefix_length path2 hwfp2, hcs2]
      · exact hws3

/-- Witness for C8 at the one-word program, after one call. -/
theorem prefix_stack_mirrors_path_witness :
    ∃ vm1, runState (T9Vm.init (encForest [Node.mk true 0 [97] []])) 1 = some vm1 ∧
      (∃ path, wfPath path = true ∧ vm1.control_stack = pathInstrs path ∧
        vm1.word_stack = (pathPrefix path).reverse) ∧
      vm1.word_stack.length = (vm1.control_stack.map Instr.len).sum ∧
      ∀ wd vm2, vm1.next_word = some (some wd, vm2) →
        wd.length = (vm2.control_stack.map Instr.len).sum ∧
        vm2.word_stack = wd.reverse :=
  prefix_stack_mirrors_path [Node.mk true 0 [97] []]
    (by simp [wfForest, validUtf8, utf8Run, utf8Step, isCont]) 1

/-- Claim C9: decoding a control byte is total — for every 8-bit value the
`match` on the masked low 3 bits lands in one of the eight listed arms (the
`unreachable!()` arm, modelled by `none`, is never taken) — and the extracted
payload length is always between 0 and 31. -/
theorem instruction_decode_total (b : Nat) (h : b < 256) :
    (Instruction.fromU8 b).isSome = true ∧ Instr.len ⟨b⟩ ≤ 31 := by
  constructor
  · have h8 : b % 8 = 0 ∨ b % 8 = 1 ∨ b % 8 = 2 ∨ b % 8 = 3 ∨ b % 8 = 4 ∨
        b % 8 = 5 ∨ b % 8 = 6 ∨ b % 8 = 7 := by omega
    rcases h8 with h8 | h8 | h8 | h8 | h8 | h8 | h8 | h8 <;>
      simp [Instruction.fromU8, h8]
  · have hm : b % 256 = b := Nat.mod_eq_of_lt h
    simp only [Instr.len, hm]
    omega

/-- Witness for C9 at the byte 255 (opcode 111, length 31). -/
theorem instruction_decode_total_witness :
    (Instruction.fromU8 255).isSome = true ∧ Instr.len ⟨255⟩ ≤ 31 :=
  instruction_decode_total 255 (by decide)

/-- Claim C10: on a well-formed program the internal pops of backtracking
never underflow — in every reachable state the next call never panics (the
`unwrap`s inside `pop_cstack` never fire, modelled by `next_word ≠ none`) —
and the priority-address stack always holds exactly one entry per
word-terminating entry on the control stack. -/
theorem pops_never_underflow (roots : List Node)
    (h : wfForest [] roots = true) (k : Nat) :
    ∃ vm1, runState (T9Vm.init (encForest roots)) k = some vm1 ∧
      vm1.next_word ≠ none ∧
      vm1.prio_addr_stack.length =
        (vm1.control_stack.filter Instr.is_word).length := by
  obtain ⟨vm1, hrs, hinv⟩ := interInv_runState k _ _ (interInv_init roots h)
  obtain ⟨path, hwfp, hcs, hws, hps⟩ := interInv_shape hinv
  exact ⟨vm1, hrs, interInv_no_crash hinv,
    by rw [hps, hcs, pathInstrs_filter_word]⟩

/-- Witness for C10 at the one-word program, after one call. -/
theorem pops_never_underflow_witness :
    ∃ vm1, runState (T9Vm.init (encForest [Node.mk true 0 [97] []])) 1 = some vm1 ∧
      vm1.next_word ≠ none ∧
      vm1.prio_addr_stack.length =
        (vm1.control_stack.filter Instr.is_word).length :=
  pops_never_underflow [Node.mk true 0 [97] []]
    (by simp [wfForest, validUtf8, utf8Run, utf8Step, isCont]) 1
